import Mathlib

/-!
Shallow embedding of the thread-safe LRU cache (`src/src/lib.rs`).

The Rust implementation stores a `HashMap<K, V>` (modelled here as an
association list with unique keys) and a `VecDeque<K>` recency sequence
(modelled as a list, head = front = least recently used, back = most
recently used) behind one `RwLock`.  The lock itself has no sequential
content; the operations are embedded as pure state-passing functions on
the combined state, matching the body of each critical section line by
line.
-/

namespace ThreadSafeLru

variable {K V : Type}

/-- The single construction-time error from the spec (`assert!(capacity > 0)`
in `LruCache::new`). -/
inductive CacheError where
  | invalidCapacity
  deriving DecidableEq

/-- Embedding of `struct CacheState { map: HashMap<K, V>, order: VecDeque<K> }`.
The hash map is an association list; the deque is a list with its head at the
front. -/
structure CacheState (K V : Type) where
  map : List (K × V)
  order : List K
  deriving DecidableEq

/-- Embedding of `struct LruCache { capacity: usize, inner: RwLock<CacheState<K, V>> }`.
The `RwLock` wrapper is dropped: every operation body acts on the guarded state. -/
structure LruCache (K V : Type) where
  capacity : Nat
  state : CacheState K V
  deriving DecidableEq

/-- `HashMap::contains_key`. -/
def containsKey [DecidableEq K] (m : List (K × V)) (k : K) : Bool :=
  m.any (fun p => p.1 == k)

/-- `HashMap::get(key).cloned()`. -/
def lookupKey [DecidableEq K] (m : List (K × V)) (k : K) : Option V :=
  (m.find? (fun p => p.1 == k)).map Prod.snd

/-- `HashMap::remove(key)` (the removed value is not used by the source). -/
def eraseKey [DecidableEq K] (m : List (K × V)) (k : K) : List (K × V) :=
  m.filter (fun p => p.1 != k)

/-- `HashMap::insert(key, value)`: overwrites any previous binding of `key`. -/
def insertKey [DecidableEq K] (m : List (K × V)) (k : K) (v : V) : List (K × V) :=
  (k, v) :: eraseKey m k

/-- The repositioning snippet shared by `get` and `put`:
`if let Some(pos) = state.order.iter().position(|k| k == key) { state.order.remove(pos); }`. -/
def reposition [DecidableEq K] (l : List K) (k : K) : List K :=
  match l.findIdx? (fun x => x == k) with
  | some pos => l.eraseIdx pos
  | none => l

/-- Embedding of `LruCache::get`: returns the looked-up value together with the
post-state.  On a hit the key is removed from its position in `order` and pushed
to the back; on a miss nothing changes. -/
def LruCache.get [DecidableEq K] (c : LruCache K V) (key : K) :
    Option V × LruCache K V :=
  match lookupKey c.state.map key with
  | some value =>
      (some value,
        { c with state := { c.state with order := reposition c.state.order key ++ [key] } })
  | none => (none, c)

/-- Embedding of `LruCache::put`.  If the key is present its value is overwritten
and it is repositioned to the back.  Otherwise, when `map.len() == capacity`,
`order.pop_front()` is tried and on `Some(lru_key)` that key is removed from the
map; then the new entry is inserted and pushed to the back. -/
def LruCache.put [DecidableEq K] (c : LruCache K V) (key : K) (value : V) :
    LruCache K V :=
  if containsKey c.state.map key then
    { c with state :=
        { map := insertKey c.state.map key value,
          order := reposition c.state.order key ++ [key] } }
  else
    let st : CacheState K V :=
      if c.state.map.length = c.capacity then
        match c.state.order with
        | [] => c.state
        | lru :: rest => { map := eraseKey c.state.map lru, order := rest }
      else c.state
    { c with state := { map := insertKey st.map key value, order := st.order ++ [key] } }

/-- Embedding of `LruCache::len`. -/
def LruCache.len (c : LruCache K V) : Nat :=
  c.state.map.length

/-- Embedding of `LruCache::new`: `assert!(capacity > 0)` is modelled as the
`InvalidCapacity` failure; otherwise an empty cache is produced
(`with_capacity` is only an allocation hint and has no sequential content). -/
def LruCache.new [DecidableEq K] (capacity : Nat) : Except CacheError (LruCache K V) :=
  if capacity > 0 then
    .ok { capacity := capacity, state := { map := [], order := [] } }
  else
    .error .invalidCapacity

/-- One public operation of the API. -/
inductive Op (K V : Type) where
  | get : K → Op K V
  | put : K → V → Op K V
  | len : Op K V

/-- State transition of one completed operation (`len` does not mutate). -/
def applyOp [DecidableEq K] (c : LruCache K V) : Op K V → LruCache K V
  | .get k => (c.get k).2
  | .put k v => c.put k v
  | .len => c

/-- Run a sequence of operations from a state. -/
def run [DecidableEq K] (c : LruCache K V) (ops : List (Op K V)) : LruCache K V :=
  ops.foldl applyOp c

/-- The core consistency invariant of the spec: the recency sequence has no
duplicates and the multiset of map keys equals the multiset of sequence
entries (hence each key of the table occurs in the sequence exactly once and
vice versa). -/
def Consistent (s : CacheState K V) : Prop :=
  s.order.Nodup ∧ (s.map.map Prod.fst).Perm s.order

/-- Well-formedness of a whole cache: positive capacity, consistent state,
and the table within capacity. -/
def WF (c : LruCache K V) : Prop :=
  0 < c.capacity ∧ Consistent c.state ∧ c.state.map.length ≤ c.capacity

/-- A cache state is reachable when it is produced by a successful `new`
followed by any sequence of completed `get`/`put`/`len` calls. -/
def Reachable [DecidableEq K] (c : LruCache K V) : Prop :=
  ∃ (cap : Nat) (c0 : LruCache K V) (ops : List (Op K V)),
    LruCache.new cap = .ok c0 ∧ run c0 ops = c

end ThreadSafeLru

namespace ThreadSafeLru

variable {K V : Type}

theorem reposition_eq_erase [DecidableEq K] (l : List K) (k : K) :
    reposition l k = l.erase k := by
  induction l with
  | nil => rfl
  | cons a l ih =>
      by_cases ha : a = k
      · subst ha
        simp [reposition, List.findIdx?_cons]
      · rw [List.erase_cons_tail (by simpa using ha)]
        cases hf : l.findIdx? (fun x => x == k) with
        | none =>
            have hnm : k ∉ l := by
              intro hm
              have := (List.findIdx?_eq_none_iff.mp hf) k hm
              simp at this
            simp [reposition, List.findIdx?_cons, ha, List.findIdx?_succ, hf,
              List.erase_of_not_mem hnm]
        | some p =>
            have ih' : l.eraseIdx p = l.erase k := by
              simpa [reposition, hf] using ih
            simp [reposition, List.findIdx?_cons, ha, List.findIdx?_succ, hf,
              List.eraseIdx_cons_succ, ih']

theorem lookupKey_insertKey_self [DecidableEq K] (m : List (K × V)) (k : K) (v : V) :
    lookupKey (insertKey m k v) k = some v := by
  simp [lookupKey, insertKey, List.find?_cons]

theorem find?_eraseKey_ne [DecidableEq K] (m : List (K × V)) {k k' : K} (h : k' ≠ k) :
    (eraseKey m k).find? (fun p => p.1 == k') = m.find? (fun p => p.1 == k') := by
  induction m with
  | nil => rfl
  | cons a m ih =>
      by_cases ha : a.1 = k
      · have hne : (k == k') = false := by
          simp
          exact fun e => h e.symm
        simpa [eraseKey, List.filter_cons, ha, List.find?_cons, hne] using ih
      · by_cases hk' : a.1 = k'
        · simp [eraseKey, List.filter_cons, ha, List.find?_cons, hk', h]
        · simpa [eraseKey, List.filter_cons, ha, List.find?_cons, hk'] using ih

theorem lookupKey_insertKey_ne [DecidableEq K] (m : List (K × V)) {k k' : K} (v : V)
    (h : k' ≠ k) : lookupKey (insertKey m k v) k' = lookupKey m k' := by
  simp only [lookupKey, insertKey, List.find?_cons]
  have hne : ((k, v).1 == k') = false := by
    simp
    exact fun e => h e.symm
  rw [hne]
  rw [find?_eraseKey_ne m h]

theorem containsKey_iff_mem [DecidableEq K] (m : List (K × V)) (k : K) :
    containsKey m k = true ↔ k ∈ m.map Prod.fst := by
  simp [containsKey, List.any_eq_true, List.mem_map]

theorem lookupKey_eq_none_iff [DecidableEq K] (m : List (K × V)) (k : K) :
    lookupKey m k = none ↔ containsKey m k = false := by
  simp [lookupKey, containsKey, List.find?_eq_none, List.any_eq_true]

theorem containsKey_of_lookupKey_some [DecidableEq K] {m : List (K × V)} {k : K} {v : V}
    (h : lookupKey m k = some v) : containsKey m k = true := by
  by_contra hc
  have hn : lookupKey m k = none := (lookupKey_eq_none_iff m k).mpr (by simpa using hc)
  rw [hn] at h
  exact Option.noConfusion h

theorem map_fst_eraseKey [DecidableEq K] (m : List (K × V)) (k : K) :
    (eraseKey m k).map Prod.fst = (m.map Prod.fst).filter (fun x => x != k) := by
  induction m with
  | nil => rfl
  | cons a m ih =>
      by_cases ha : a.1 = k
      · simp [eraseKey, List.filter_cons, ha] at *
        exact ih
      · simp [eraseKey, List.filter_cons, ha] at *
        exact ih

theorem eraseKey_of_not_contains [DecidableEq K] {m : List (K × V)} {k : K}
    (h : containsKey m k = false) : eraseKey m k = m := by
  rw [eraseKey, List.filter_eq_self]
  intro p hp
  have hne : ¬ (p.1 == k) = true := by
    intro he
    rw [containsKey] at h
    have ha : m.any (fun p => p.1 == k) = true := List.any_eq_true.mpr ⟨p, hp, he⟩
    rw [ha] at h
    exact Bool.noConfusion h
  simp at hne ⊢
  exact hne

theorem filter_ne_of_not_mem [DecidableEq K] {l : List K} {k : K} (h : k ∉ l) :
    l.filter (fun x => x != k) = l := by
  rw [List.filter_eq_self]
  intro a ha
  simp
  exact fun e => h (e ▸ ha)

theorem nodup_filter_ne_eq_erase [DecidableEq K] {l : List K} (k : K) (h : l.Nodup) :
    l.filter (fun x => x != k) = l.erase k := by
  induction l with
  | nil => rfl
  | cons a l ih =>
      by_cases ha : a = k
      · subst ha
        rw [List.erase_cons_head]
        simp [List.filter_cons]
        intro x hx e
        exact (List.nodup_cons.mp h).1 (e ▸ hx)
      · rw [List.erase_cons_tail (by simpa using ha)]
        simp [List.filter_cons, ha]
        exact ih (List.nodup_cons.mp h).2

theorem Consistent.keys_nodup {s : CacheState K V} (h : Consistent s) :
    (s.map.map Prod.fst).Nodup :=
  (h.2.nodup_iff).mpr h.1

theorem Consistent.mem_order_iff [DecidableEq K] {s : CacheState K V} (h : Consistent s)
    (k : K) : k ∈ s.order ↔ containsKey s.map k = true := by
  rw [containsKey_iff_mem]
  exact (h.2.mem_iff).symm

theorem containsKey_eraseKey_false [DecidableEq K] {m : List (K × V)} {k : K} (k' : K)
    (h : containsKey m k = false) : containsKey (eraseKey m k') k = false := by
  by_contra hc
  have h1 : containsKey (eraseKey m k') k = true := by simpa using hc
  have h2 : k ∈ (eraseKey m k').map Prod.fst := (containsKey_iff_mem _ k).mp h1
  rw [map_fst_eraseKey] at h2
  have h3 := (containsKey_iff_mem m k).mpr (List.mem_of_mem_filter h2)
  rw [h] at h3
  exact Bool.noConfusion h3

theorem get_hit_eq [DecidableEq K] {c : LruCache K V} {k : K} {v : V}
    (h : lookupKey c.state.map k = some v) :
    c.get k = (some v,
      { c with state := { c.state with order := reposition c.state.order k ++ [k] } }) := by
  simp [LruCache.get, h]

theorem get_miss_eq [DecidableEq K] {c : LruCache K V} {k : K}
    (h : lookupKey c.state.map k = none) : c.get k = (none, c) := by
  simp [LruCache.get, h]

theorem put_present_eq [DecidableEq K] {c : LruCache K V} {k : K} (v : V)
    (h : containsKey c.state.map k = true) :
    c.put k v = { c with state := { map := insertKey c.state.map k v,
                                    order := reposition c.state.order k ++ [k] } } := by
  simp [LruCache.put, h]

theorem put_absent_below_eq [DecidableEq K] {c : LruCache K V} {k : K} (v : V)
    (h : containsKey c.state.map k = false) (hlen : c.state.map.length ≠ c.capacity) :
    c.put k v = { c with state := { map := insertKey c.state.map k v,
                                    order := c.state.order ++ [k] } } := by
  simp [LruCache.put, h, hlen]

theorem put_absent_at_cap_eq [DecidableEq K] {c : LruCache K V} {k : K} (v : V)
    (h : containsKey c.state.map k = false) (hlen : c.state.map.length = c.capacity)
    {lru : K} {rest : List K} (horder : c.state.order = lru :: rest) :
    c.put k v = { c with state := { map := insertKey (eraseKey c.state.map lru) k v,
                                    order := rest ++ [k] } } := by
  simp [LruCache.put, h, hlen, horder]

theorem length_eraseKey_of_contains [DecidableEq K] {m : List (K × V)} {k : K}
    (hnd : (m.map Prod.fst).Nodup) (h : containsKey m k = true) :
    (eraseKey m k).length = m.length - 1 := by
  have h1 : (eraseKey m k).length = ((m.map Prod.fst).filter (fun x => x != k)).length := by
    rw [← map_fst_eraseKey, List.length_map]
  rw [h1, nodup_filter_ne_eq_erase k hnd,
    List.length_erase_of_mem ((containsKey_iff_mem m k).mp h), List.length_map]

theorem length_insertKey_of_contains [DecidableEq K] {m : List (K × V)} {k : K} (v : V)
    (hnd : (m.map Prod.fst).Nodup) (h : containsKey m k = true) :
    (insertKey m k v).length = m.length := by
  have hm : 0 < m.length := by
    cases m with
    | nil => simp [containsKey] at h
    | cons a m => simp
  simp only [insertKey, List.length_cons, length_eraseKey_of_contains hnd h]
  omega

theorem length_insertKey_of_not_contains [DecidableEq K] {m : List (K × V)} {k : K} (v : V)
    (h : containsKey m k = false) : (insertKey m k v).length = m.length + 1 := by
  simp [insertKey, eraseKey_of_not_contains h]

theorem consistent_get_hit [DecidableEq K] {s : CacheState K V} (h : Consistent s) {k : K}
    (hk : containsKey s.map k = true) :
    Consistent ⟨s.map, reposition s.order k ++ [k]⟩ := by
  have hmem : k ∈ s.order := (h.mem_order_iff k).mpr hk
  unfold Consistent
  rw [reposition_eq_erase]
  constructor
  · have hnd : (k :: s.order.erase k).Nodup := by
      rw [List.nodup_cons]
      exact ⟨fun hc => ((h.1.mem_erase_iff).mp hc).1 rfl, h.1.erase k⟩
    exact ((List.perm_append_singleton k _).nodup_iff).mpr hnd
  · exact h.2.trans ((List.perm_cons_erase hmem).trans (List.perm_append_singleton k _).symm)

theorem consistent_put_hit [DecidableEq K] {s : CacheState K V} (h : Consistent s) {k : K}
    (v : V) (hk : containsKey s.map k = true) :
    Consistent ⟨insertKey s.map k v, reposition s.order k ++ [k]⟩ := by
  have hmem : k ∈ s.order := (h.mem_order_iff k).mpr hk
  have hkeys : k ∈ s.map.map Prod.fst := (containsKey_iff_mem s.map k).mp hk
  unfold Consistent
  rw [reposition_eq_erase]
  constructor
  · have hnd : (k :: s.order.erase k).Nodup := by
      rw [List.nodup_cons]
      exact ⟨fun hc => ((h.1.mem_erase_iff).mp hc).1 rfl, h.1.erase k⟩
    exact ((List.perm_append_singleton k _).nodup_iff).mpr hnd
  · have e1 : (insertKey s.map k v).map Prod.fst
        = k :: (s.map.map Prod.fst).filter (fun x => x != k) := by
      simp [insertKey, map_fst_eraseKey]
    rw [e1, nodup_filter_ne_eq_erase k h.keys_nodup]
    exact ((List.perm_cons_erase hkeys).symm.trans
      (h.2.trans ((List.perm_cons_erase hmem).trans (List.perm_append_singleton k _).symm)))

theorem not_mem_order_of_not_contains [DecidableEq K] {s : CacheState K V}
    (h : Consistent s) {k : K} (hk : containsKey s.map k = false) : k ∉ s.order := by
  intro hm
  have h1 := (h.mem_order_iff k).mp hm
  rw [hk] at h1
  exact Bool.noConfusion h1

theorem consistent_put_absent_below [DecidableEq K] {s : CacheState K V} (h : Consistent s)
    {k : K} (v : V) (hk : containsKey s.map k = false) :
    Consistent ⟨insertKey s.map k v, s.order ++ [k]⟩ := by
  have hmem : k ∉ s.order := not_mem_order_of_not_contains h hk
  constructor
  · exact ((List.perm_append_singleton k _).nodup_iff).mpr (List.nodup_cons.mpr ⟨hmem, h.1⟩)
  · have e1 : (insertKey s.map k v).map Prod.fst = k :: s.map.map Prod.fst := by
      simp [insertKey, eraseKey_of_not_contains hk]
    rw [e1]
    exact (h.2.cons k).trans (List.perm_append_singleton k _).symm

theorem consistent_put_absent_evict [DecidableEq K] {s : CacheState K V} (h : Consistent s)
    {k : K} (v : V) (hk : containsKey s.map k = false)
    {lru : K} {rest : List K} (horder : s.order = lru :: rest) :
    Consistent ⟨insertKey (eraseKey s.map lru) k v, rest ++ [k]⟩ := by
  have hmem : k ∉ s.order := not_mem_order_of_not_contains h hk
  have hndc : (lru :: rest).Nodup := by rw [← horder]; exact h.1
  have hlnr : lru ∉ rest := (List.nodup_cons.mp hndc).1
  have hrest : rest.Nodup := (List.nodup_cons.mp hndc).2
  have hkrest : k ∉ rest := fun hr => hmem (by rw [horder]; exact List.mem_cons_of_mem _ hr)
  have p2 : ((eraseKey s.map lru).map Prod.fst).Perm rest := by
    rw [map_fst_eraseKey]
    have hp := h.2.filter (fun x => x != lru)
    rw [horder] at hp
    simpa [List.filter_cons, filter_ne_of_not_mem hlnr] using hp
  constructor
  · exact ((List.perm_append_singleton k _).nodup_iff).mpr (List.nodup_cons.mpr ⟨hkrest, hrest⟩)
  · have e1 : (insertKey (eraseKey s.map lru) k v).map Prod.fst
        = k :: (eraseKey s.map lru).map Prod.fst := by
      simp [insertKey, eraseKey_of_not_contains (containsKey_eraseKey_false lru hk)]
    rw [e1]
    exact (p2.cons k).trans (List.perm_append_singleton k _).symm


theorem get_preserves_WF [DecidableEq K] (c : LruCache K V) (k : K) (h : WF c) :
    WF (c.get k).2 := by
  obtain ⟨hcap, hcons, hle⟩ := h
  cases hl : lookupKey c.state.map k with
  | none =>
      rw [get_miss_eq hl]
      exact ⟨hcap, hcons, hle⟩
  | some v =>
      have hk := containsKey_of_lookupKey_some hl
      rw [get_hit_eq hl]
      exact ⟨hcap, consistent_get_hit hcons hk, hle⟩

theorem put_preserves_WF [DecidableEq K] (c : LruCache K V) (k : K) (v : V) (h : WF c) :
    WF (c.put k v) := by
  obtain ⟨hcap, hcons, hle⟩ := h
  by_cases hk : containsKey c.state.map k = true
  · rw [put_present_eq v hk]
    refine ⟨hcap, consistent_put_hit hcons v hk, ?_⟩
    show (insertKey c.state.map k v).length ≤ c.capacity
    rw [length_insertKey_of_contains v hcons.keys_nodup hk]
    exact hle
  · have hk' : containsKey c.state.map k = false := by simpa using hk
    by_cases hlen : c.state.map.length = c.capacity
    · have hne : c.state.order ≠ [] := by
        intro he
        have hlen2 := hcons.2.length_eq
        rw [he, List.length_map, List.length_nil] at hlen2
        omega
      obtain ⟨lru, rest, horder⟩ := List.exists_cons_of_ne_nil hne
      rw [put_absent_at_cap_eq v hk' hlen horder]
      refine ⟨hcap, consistent_put_absent_evict hcons v hk' horder, ?_⟩
      show (insertKey (eraseKey c.state.map lru) k v).length ≤ c.capacity
      have hlru : containsKey c.state.map lru = true := by
        refine (hcons.mem_order_iff lru).mp ?_
        rw [horder]
        exact List.mem_cons_self lru rest
      rw [length_insertKey_of_not_contains v (containsKey_eraseKey_false lru hk'),
        length_eraseKey_of_contains hcons.keys_nodup hlru]
      omega
    · rw [put_absent_below_eq v hk' hlen]
      refine ⟨hcap, consistent_put_absent_below hcons v hk', ?_⟩
      show (insertKey c.state.map k v).length ≤ c.capacity
      rw [length_insertKey_of_not_contains v hk']
      omega

theorem applyOp_preserves_WF [DecidableEq K] (c : LruCache K V) (op : Op K V) (h : WF c) :
    WF (applyOp c op) := by
  cases op with
  | get k => exact get_preserves_WF c k h
  | put k v => exact put_preserves_WF c k v h
  | len => exact h

theorem run_preserves_WF [DecidableEq K] (c : LruCache K V) (ops : List (Op K V))
    (h : WF c) : WF (run c ops) := by
  induction ops generalizing c with
  | nil => exact h
  | cons op ops ih =>
      show WF (run (applyOp c op) ops)
      exact ih _ (applyOp_preserves_WF c op h)

theorem new_WF [DecidableEq K] {cap : Nat} {c0 : LruCache K V}
    (h : LruCache.new cap = .ok c0) : WF c0 := by
  by_cases hc : cap > 0
  · rw [LruCache.new, if_pos hc] at h
    cases h
    exact ⟨hc, ⟨List.nodup_nil, List.Perm.refl _⟩, Nat.zero_le _⟩
  · rw [LruCache.new, if_neg hc] at h
    exact absurd h (by simp)

theorem reachable_WF [DecidableEq K] {c : LruCache K V} (h : Reachable c) : WF c := by
  obtain ⟨cap, c0, ops, hnew, hrun⟩ := h
  rw [← hrun]
  exact run_preserves_WF _ _ (new_WF hnew)


theorem order_cons_of_full [DecidableEq K] {c : LruCache K V} (hcap : 0 < c.capacity)
    (hcons : Consistent c.state) (hfull : c.state.map.length = c.capacity) :
    ∃ lru rest, c.state.order = lru :: rest := by
  have hne : c.state.order ≠ [] := by
    intro he
    have hlen2 := hcons.2.length_eq
    rw [he, List.length_map, List.length_nil] at hlen2
    omega
  exact List.exists_cons_of_ne_nil hne

theorem containsKey_eraseKey_self [DecidableEq K] (m : List (K × V)) (k : K) :
    containsKey (eraseKey m k) k = false := by
  by_contra hc
  have h1 : containsKey (eraseKey m k) k = true := by simpa using hc
  have h2 : k ∈ (eraseKey m k).map Prod.fst := (containsKey_iff_mem _ k).mp h1
  rw [map_fst_eraseKey] at h2
  have h3 := List.of_mem_filter h2
  simp at h3

theorem lookupKey_eraseKey_ne [DecidableEq K] (m : List (K × V)) {k k' : K}
    (h : k' ≠ k) : lookupKey (eraseKey m k) k' = lookupKey m k' := by
  rw [lookupKey, lookupKey, find?_eraseKey_ne m h]

theorem put_absent_at_cap_nil_eq [DecidableEq K] {c : LruCache K V} {k : K} (v : V)
    (h : containsKey c.state.map k = false) (hlen : c.state.map.length = c.capacity)
    (horder : c.state.order = []) :
    c.put k v = { c with state := { map := insertKey c.state.map k v,
                                    order := c.state.order ++ [k] } } := by
  simp [LruCache.put, h, hlen, horder]

theorem lookupKey_put_self [DecidableEq K] (c : LruCache K V) (k : K) (v : V) :
    lookupKey (c.put k v).state.map k = some v := by
  by_cases hk : containsKey c.state.map k = true
  · rw [put_present_eq v hk]
    exact lookupKey_insertKey_self _ k v
  · have hk' : containsKey c.state.map k = false := by simpa using hk
    by_cases hlen : c.state.map.length = c.capacity
    · cases horder : c.state.order with
      | nil =>
          rw [put_absent_at_cap_nil_eq v hk' hlen horder]
          exact lookupKey_insertKey_self _ k v
      | cons lru rest =>
          rw [put_absent_at_cap_eq v hk' hlen horder]
          exact lookupKey_insertKey_self _ k v
    · rw [put_absent_below_eq v hk' hlen]
      exact lookupKey_insertKey_self _ k v

/-- C1: for every cache constructed with positive capacity and every sequence of
completed `get`/`put`/`len` operations, after each completed operation the number
of entries in the table satisfies `len() <= capacity`. -/
theorem capacity_invariant [DecidableEq K] (c : LruCache K V) (h : Reachable c) :
    c.len ≤ c.capacity :=
  (reachable_WF h).2.2

theorem capacity_invariant_witness :
    (run (⟨2, ⟨[], []⟩⟩ : LruCache Nat Nat)
        [Op.put 1 10, Op.put 2 20, Op.get 1, Op.put 3 30]).len ≤
      (run (⟨2, ⟨[], []⟩⟩ : LruCache Nat Nat)
        [Op.put 1 10, Op.put 2 20, Op.get 1, Op.put 3 30]).capacity :=
  capacity_invariant _
    ⟨2, ⟨2, ⟨[], []⟩⟩, [Op.put 1 10, Op.put 2 20, Op.get 1, Op.put 3 30], rfl, rfl⟩

/-- C2: every reachable cache state satisfies the core invariant: the recency
sequence has no duplicates, every key of the table occurs in the sequence
exactly once, and every key of the sequence is present in the table. -/
theorem reachable_consistent [DecidableEq K] (c : LruCache K V) (h : Reachable c) :
    Consistent c.state ∧
    (∀ k, containsKey c.state.map k = true → c.state.order.count k = 1) ∧
    (∀ k, k ∈ c.state.order → containsKey c.state.map k = true) := by
  have hw := reachable_WF h
  refine ⟨hw.2.1, ?_, fun k hk => (hw.2.1.mem_order_iff k).mp hk⟩
  intro k hk
  exact List.count_eq_one_of_mem hw.2.1.1 ((hw.2.1.mem_order_iff k).mpr hk)

theorem reachable_consistent_witness :
    Consistent (run (⟨2, ⟨[], []⟩⟩ : LruCache Nat Nat)
        [Op.put 1 10, Op.put 2 20, Op.get 1, Op.put 3 30]).state ∧
    (∀ k, containsKey (run (⟨2, ⟨[], []⟩⟩ : LruCache Nat Nat)
        [Op.put 1 10, Op.put 2 20, Op.get 1, Op.put 3 30]).state.map k = true →
      (run (⟨2, ⟨[], []⟩⟩ : LruCache Nat Nat)
        [Op.put 1 10, Op.put 2 20, Op.get 1, Op.put 3 30]).state.order.count k = 1) ∧
    (∀ k, k ∈ (run (⟨2, ⟨[], []⟩⟩ : LruCache Nat Nat)
        [Op.put 1 10, Op.put 2 20, Op.get 1, Op.put 3 30]).state.order →
      containsKey (run (⟨2, ⟨[], []⟩⟩ : LruCache Nat Nat)
        [Op.put 1 10, Op.put 2 20, Op.get 1, Op.put 3 30]).state.map k = true) :=
  reachable_consistent _
    ⟨2, ⟨2, ⟨[], []⟩⟩, [Op.put 1 10, Op.put 2 20, Op.get 1, Op.put 3 30], rfl, rfl⟩


/-- C3: on a consistent state, `put` of an absent key evicts exactly the single
front-most (least-recently-used) key of the recency sequence when the table is
at capacity — removing it from both the sequence and the table and leaving all
other entries intact — and evicts nothing when below capacity; in both cases
the new key is appended at the most-recently-used end. -/
theorem put_absent_spec [DecidableEq K] (c : LruCache K V) (k : K) (v : V)
    (hcons : Consistent c.state) (hcap : 0 < c.capacity)
    (habs : containsKey c.state.map k = false) :
    (c.state.map.length = c.capacity →
      ∃ lru rest, c.state.order = lru :: rest ∧
        lookupKey (c.put k v).state.map lru = none ∧
        lru ∉ (c.put k v).state.order ∧
        (c.put k v).state.order = rest ++ [k] ∧
        (∀ k', k' ≠ lru → k' ≠ k →
          lookupKey (c.put k v).state.map k' = lookupKey c.state.map k') ∧
        lookupKey (c.put k v).state.map k = some v ∧
        (c.put k v).len = c.capacity) ∧
    (c.state.map.length < c.capacity →
      lookupKey (c.put k v).state.map k = some v ∧
      (∀ k', k' ≠ k → lookupKey (c.put k v).state.map k' = lookupKey c.state.map k') ∧
      (c.put k v).state.order = c.state.order ++ [k] ∧
      (c.put k v).len = c.state.map.length + 1) := by
  constructor
  · intro hfull
    obtain ⟨lru, rest, horder⟩ := order_cons_of_full hcap hcons hfull
    have hlru : containsKey c.state.map lru = true := by
      refine (hcons.mem_order_iff lru).mp ?_
      rw [horder]
      exact List.mem_cons_self lru rest
    have hlk : lru ≠ k := by
      intro he
      rw [he, habs] at hlru
      exact Bool.noConfusion hlru
    have hlnr : lru ∉ rest := by
      have hnd : (lru :: rest).Nodup := by rw [← horder]; exact hcons.1
      exact (List.nodup_cons.mp hnd).1
    refine ⟨lru, rest, horder, ?_, ?_, ?_, ?_, ?_, ?_⟩
    · rw [put_absent_at_cap_eq v habs hfull horder,
        lookupKey_insertKey_ne _ v hlk]
      show lookupKey (eraseKey c.state.map lru) lru = none
      exact (lookupKey_eq_none_iff _ _).mpr (containsKey_eraseKey_self _ lru)
    · rw [put_absent_at_cap_eq v habs hfull horder]
      show lru ∉ rest ++ [k]
      rw [List.mem_append]
      rintro (h1 | h1)
      · exact hlnr h1
      · rw [List.mem_singleton] at h1
        exact hlk h1
    · rw [put_absent_at_cap_eq v habs hfull horder]
    · intro k' h1 h2
      rw [put_absent_at_cap_eq v habs hfull horder,
        lookupKey_insertKey_ne _ v h2]
      show lookupKey (eraseKey c.state.map lru) k' = lookupKey c.state.map k'
      exact lookupKey_eraseKey_ne _ h1
    · exact lookupKey_put_self c k v
    · rw [put_absent_at_cap_eq v habs hfull horder]
      show (insertKey (eraseKey c.state.map lru) k v).length = c.capacity
      rw [length_insertKey_of_not_contains v (containsKey_eraseKey_false lru habs),
        length_eraseKey_of_contains hcons.keys_nodup hlru]
      have hpos : 0 < c.state.map.length := by
        cases hm : c.state.map with
        | nil => rw [hm] at hlru; simp [containsKey] at hlru
        | cons a m => simp [hm]
      omega
  · intro hlt
    have hne : c.state.map.length ≠ c.capacity := Nat.ne_of_lt hlt
    refine ⟨lookupKey_put_self c k v, ?_, ?_, ?_⟩
    · intro k' h1
      rw [put_absent_below_eq v habs hne]
      exact lookupKey_insertKey_ne _ v h1
    · rw [put_absent_below_eq v habs hne]
    · rw [put_absent_below_eq v habs hne]
      show (insertKey c.state.map k v).length = c.state.map.length + 1
      exact length_insertKey_of_not_contains v habs

theorem put_absent_spec_witness :
    ((⟨2, ⟨[(1, 10), (2, 20)], [1, 2]⟩⟩ : LruCache Nat Nat).state.map.length
          = (⟨2, ⟨[(1, 10), (2, 20)], [1, 2]⟩⟩ : LruCache Nat Nat).capacity →
      ∃ lru rest, (⟨2, ⟨[(1, 10), (2, 20)], [1, 2]⟩⟩ : LruCache Nat Nat).state.order
          = lru :: rest ∧
        lookupKey ((⟨2, ⟨[(1, 10), (2, 20)], [1, 2]⟩⟩ : LruCache Nat Nat).put 3 30).state.map lru
          = none ∧
        lru ∉ ((⟨2, ⟨[(1, 10), (2, 20)], [1, 2]⟩⟩ : LruCache Nat Nat).put 3 30).state.order ∧
        ((⟨2, ⟨[(1, 10), (2, 20)], [1, 2]⟩⟩ : LruCache Nat Nat).put 3 30).state.order
          = rest ++ [3] ∧
        (∀ k', k' ≠ lru → k' ≠ 3 →
          lookupKey ((⟨2, ⟨[(1, 10), (2, 20)], [1, 2]⟩⟩ : LruCache Nat Nat).put 3 30).state.map k'
            = lookupKey (⟨2, ⟨[(1, 10), (2, 20)], [1, 2]⟩⟩ : LruCache Nat Nat).state.map k') ∧
        lookupKey ((⟨2, ⟨[(1, 10), (2, 20)], [1, 2]⟩⟩ : LruCache Nat Nat).put 3 30).state.map 3
          = some 30 ∧
        ((⟨2, ⟨[(1, 10), (2, 20)], [1, 2]⟩⟩ : LruCache Nat Nat).put 3 30).len
          = (⟨2, ⟨[(1, 10), (2, 20)], [1, 2]⟩⟩ : LruCache Nat Nat).capacity) ∧
    ((⟨2, ⟨[(1, 10), (2, 20)], [1, 2]⟩⟩ : LruCache Nat Nat).state.map.length
          < (⟨2, ⟨[(1, 10), (2, 20)], [1, 2]⟩⟩ : LruCache Nat Nat).capacity →
      lookupKey ((⟨2, ⟨[(1, 10), (2, 20)], [1, 2]⟩⟩ : LruCache Nat Nat).put 3 30).state.map 3
        = some 30 ∧
      (∀ k', k' ≠ 3 →
        lookupKey ((⟨2, ⟨[(1, 10), (2, 20)], [1, 2]⟩⟩ : LruCache Nat Nat).put 3 30).state.map k'
          = lookupKey (⟨2, ⟨[(1, 10), (2, 20)], [1, 2]⟩⟩ : LruCache Nat Nat).state.map k') ∧
      ((⟨2, ⟨[(1, 10), (2, 20)], [1, 2]⟩⟩ : LruCache Nat Nat).put 3 30).state.order
        = (⟨2, ⟨[(1, 10), (2, 20)], [1, 2]⟩⟩ : LruCache Nat Nat).state.order ++ [3] ∧
      ((⟨2, ⟨[(1, 10), (2, 20)], [1, 2]⟩⟩ : LruCache Nat Nat).put 3 30).len
        = (⟨2, ⟨[(1, 10), (2, 20)], [1, 2]⟩⟩ : LruCache Nat Nat).state.map.length + 1) :=
  put_absent_spec ⟨2, ⟨[(1, 10), (2, 20)], [1, 2]⟩⟩ 3 30
    ⟨by decide, by decide⟩ (by decide) (by decide)

/-- C4: on a hit, `get` returns a copy of the stored value, leaves the table
untouched, and moves the key to the most-recently-used end of the recency
sequence (erasing its current occurrence and appending it at the back). -/
theorem get_hit_spec [DecidableEq K] (c : LruCache K V) (k : K) (v : V)
    (hv : lookupKey c.state.map k = some v) :
    (c.get k).1 = some v ∧
    (c.get k).2.state.map = c.state.map ∧
    (c.get k).2.state.order = c.state.order.erase k ++ [k] ∧
    (c.get k).2.capacity = c.capacity ∧
    (c.get k).2.len = c.len := by
  rw [get_hit_eq hv]
  exact ⟨rfl, rfl, by rw [reposition_eq_erase], rfl, rfl⟩

theorem get_hit_spec_witness :
    ((⟨2, ⟨[(1, 10), (2, 20)], [1, 2]⟩⟩ : LruCache Nat Nat).get 1).1 = some 10 ∧
    ((⟨2, ⟨[(1, 10), (2, 20)], [1, 2]⟩⟩ : LruCache Nat Nat).get 1).2.state.map
      = [(1, 10), (2, 20)] ∧
    ((⟨2, ⟨[(1, 10), (2, 20)], [1, 2]⟩⟩ : LruCache Nat Nat).get 1).2.state.order
      = ([1, 2] : List Nat).erase 1 ++ [1] ∧
    ((⟨2, ⟨[(1, 10), (2, 20)], [1, 2]⟩⟩ : LruCache Nat Nat).get 1).2.capacity = 2 ∧
    ((⟨2, ⟨[(1, 10), (2, 20)], [1, 2]⟩⟩ : LruCache Nat Nat).get 1).2.len
      = (⟨2, ⟨[(1, 10), (2, 20)], [1, 2]⟩⟩ : LruCache Nat Nat).len :=
  get_hit_spec ⟨2, ⟨[(1, 10), (2, 20)], [1, 2]⟩⟩ 1 10 (by decide)

/-- C5: on a consistent state, `put` of a present key overwrites its value,
moves it to the most-recently-used end, leaves every other key's value and the
table size unchanged, and evicts nothing. -/
theorem put_update_spec [DecidableEq K] (c : LruCache K V) (k : K) (v : V)
    (hcons : Consistent c.state) (hk : containsKey c.state.map k = true) :
    lookupKey (c.put k v).state.map k = some v ∧
    (∀ k', k' ≠ k → lookupKey (c.put k v).state.map k' = lookupKey c.state.map k') ∧
    (c.put k v).state.order = c.state.order.erase k ++ [k] ∧
    (c.put k v).len = c.len ∧
    (c.put k v).capacity = c.capacity := by
  rw [put_present_eq v hk]
  refine ⟨lookupKey_insertKey_self _ k v, fun k' h1 => lookupKey_insertKey_ne _ v h1,
    by rw [reposition_eq_erase], ?_, rfl⟩
  show (insertKey c.state.map k v).length = c.state.map.length
  exact length_insertKey_of_contains v hcons.keys_nodup hk

theorem put_update_spec_witness :
    lookupKey ((⟨2, ⟨[(1, 10), (2, 20)], [1, 2]⟩⟩ : LruCache Nat Nat).put 1 99).state.map 1
      = some 99 ∧
    (∀ k', k' ≠ 1 →
      lookupKey ((⟨2, ⟨[(1, 10), (2, 20)], [1, 2]⟩⟩ : LruCache Nat Nat).put 1 99).state.map k'
        = lookupKey (⟨2, ⟨[(1, 10), (2, 20)], [1, 2]⟩⟩ : LruCache Nat Nat).state.map k') ∧
    ((⟨2, ⟨[(1, 10), (2, 20)], [1, 2]⟩⟩ : LruCache Nat Nat).put 1 99).state.order
      = ([1, 2] : List Nat).erase 1 ++ [1] ∧
    ((⟨2, ⟨[(1, 10), (2, 20)], [1, 2]⟩⟩ : LruCache Nat Nat).put 1 99).len
      = (⟨2, ⟨[(1, 10), (2, 20)], [1, 2]⟩⟩ : LruCache Nat Nat).len ∧
    ((⟨2, ⟨[(1, 10), (2, 20)], [1, 2]⟩⟩ : LruCache Nat Nat).put 1 99).capacity = 2 :=
  put_update_spec ⟨2, ⟨[(1, 10), (2, 20)], [1, 2]⟩⟩ 1 99 ⟨by decide, by decide⟩ (by decide)

/-- C6: `get` on an absent key returns nothing and leaves the whole cache state
(table and recency sequence, hence `len()` and all subsequent eviction
behaviour) exactly unchanged. -/
theorem get_miss_spec [DecidableEq K] (c : LruCache K V) (k : K)
    (habs : containsKey c.state.map k = false) :
    c.get k = (none, c) :=
  get_miss_eq ((lookupKey_eq_none_iff _ _).mpr habs)

theorem get_miss_spec_witness :
    (⟨2, ⟨[(1, 10), (2, 20)], [1, 2]⟩⟩ : LruCache Nat Nat).get 5
      = (none, ⟨2, ⟨[(1, 10), (2, 20)], [1, 2]⟩⟩) :=
  get_miss_spec ⟨2, ⟨[(1, 10), (2, 20)], [1, 2]⟩⟩ 5 (by decide)


/-- C7: `new(capacity)` fails with `InvalidCapacity` exactly when `capacity == 0`,
and for every positive capacity it succeeds with an empty cache of that
capacity.  (`get`, `put` and `len` are total functions of the embedding: no
other operation can fail.) -/
theorem new_spec [DecidableEq K] (cap : Nat) :
    ((LruCache.new cap : Except CacheError (LruCache K V))
        = .error .invalidCapacity ↔ cap = 0) ∧
    ((LruCache.new cap : Except CacheError (LruCache K V))
        = .ok ⟨cap, ⟨[], []⟩⟩ ↔ 0 < cap) := by
  unfold LruCache.new
  by_cases h : cap > 0
  · rw [if_pos h]
    constructor
    · constructor
      · intro he
        exact absurd he (by simp)
      · intro he
        omega
    · simp [h]
  · rw [if_neg h]
    constructor
    · simp
      omega
    · constructor
      · intro he
        exact absurd he (by simp)
      · intro he
        omega

/-- C8: immediately after `put(k, v)` — from any state, in particular any
reachable one — `get(&k)` returns `Some(v)`: a just-inserted or just-updated
entry is resident and retrievable. -/
theorem put_then_get [DecidableEq K] (c : LruCache K V) (k : K) (v : V) :
    ((c.put k v).get k).1 = some v := by
  rw [get_hit_eq (lookupKey_put_self c k v)]

/-- C9: in `put`, when the key is absent and the table is at capacity, the
recency sequence of any consistent state with positive capacity is non-empty,
so `order.pop_front()` always yields the least-recently-used key and the
eviction-skipping `None` branch is unreachable. -/
theorem pop_front_always_some [DecidableEq K] (c : LruCache K V)
    (hcap : 0 < c.capacity) (hcons : Consistent c.state)
    (hfull : c.state.map.length = c.capacity) :
    ∃ lru rest, c.state.order = lru :: rest :=
  order_cons_of_full hcap hcons hfull

theorem pop_front_always_some_witness :
    ∃ lru rest, (⟨1, ⟨[(5, 7)], [5]⟩⟩ : LruCache Nat Nat).state.order = lru :: rest :=
  pop_front_always_some ⟨1, ⟨[(5, 7)], [5]⟩⟩ (by decide) ⟨by decide, by decide⟩ (by decide)

end ThreadSafeLru
